import Mathlib

set_option maxHeartbeats 1000000

/- Verification of SpasMilenkov/Document-Classification-Algorithm.
   Shallow embedding of src/documentCategorization/main.cpp (sequential
   variant) and src/paralelCategorization/main.cpp (MPI variant).
   C++ std::string values are modelled as lists of characters. -/

abbrev Str := List Char

/-- Model of one position test of std::string substring search: the keyword
kw occurs in text at index i when the slice of text starting at i begins
with kw. -/
def occursAt (text kw : Str) (i : Nat) : Bool :=
  decide ((text.drop i).take kw.length = kw)

/-- Linear scan over candidate positions i, i+1, ... (the fuel counts the
remaining candidates); together with findFrom this models std::string::find. -/
def findScan (text kw : Str) : Nat → Nat → Option Nat
  | _, 0 => none
  | i, fuel + 1 => if occursAt text kw i then some i else findScan text kw (i + 1) fuel

/-- Model of text.find(kw, start): the least i with start ≤ i ≤ text.length at
which kw occurs in text, and none (npos) when there is no such i. -/
def findFrom (text kw : Str) (start : Nat) : Option Nat :=
  if start ≤ text.length then findScan text kw start (text.length + 1 - start) else none

/-- The counting loop shared by classifyDocument (parallel main.cpp, lines
133-137) and findAllOccurrences (sequential main.cpp, lines 84-89):
pos = text.find(term, 0); while (pos != npos) { pos = text.find(term, pos + term.length()); count++; }
The fuel bounds the number of iterations; text.length + 1 iterations always
suffice when the keyword is nonempty, because the position strictly grows.
For an empty keyword the C++ loop never terminates; the model returns a
fuel-truncated value there. -/
def countLoop (text kw : Str) : Nat → Nat → Nat
  | 0, _ => 0
  | fuel + 1, pos =>
    match findFrom text kw pos with
    | none => 0
    | some p => countLoop text kw fuel (p + kw.length) + 1

/-- Number of non-overlapping occurrences counted by the C++ find loop. -/
def countOccurrences (text kw : Str) : Nat :=
  countLoop text kw (text.length + 1) 0

/-- Per-topic count: the loop over the topic identifiers accumulating into the
single counter count. -/
def topicCount (text : Str) (identifiers : List Str) : Nat :=
  identifiers.foldl (fun c term => c + countOccurrences text term) 0

abbrev Catalog := List (Str × List Str)

/-- The matching core of classifyDocument (parallel variant, lines 128-141) and
findAllOccurrences (sequential variant, lines 79-92): one (topic, count) entry
per catalog topic, in catalog iteration order. -/
def classifyDocument (cat : Catalog) (text : Str) : List (Str × Nat) :=
  cat.map (fun p => (p.1, topicCount text p.2))

/-- Stated from the specification (section 4.2) as a reference point: scan the
text left to right; on a match at the current position count one occurrence
and resume strictly after its end (start + keyword length), otherwise advance
one character. The two empty-keyword base cases are outside the spec text. -/
def specNonOverlapCount : Str → Str → Nat
  | _, [] => 0
  | [], _ :: _ => 0
  | b :: kw, a :: rest =>
    if (a :: rest).take (b :: kw).length = b :: kw then
      specNonOverlapCount (b :: kw) ((a :: rest).drop (b :: kw).length) + 1
    else
      specNonOverlapCount (b :: kw) rest
termination_by _ t => t.length
decreasing_by
  all_goals simp [List.length_drop]
  all_goals omega

/-- Lexicographic comparison of character lists, the std::map key order for
std::string keys. -/
def strLt : Str → Str → Bool
  | [], [] => false
  | [], _ :: _ => true
  | _ :: _, [] => false
  | a :: as, b :: bs => if a < b then true else if b < a then false else strLt as bs

/-- Assignment m[k] = v on a key-sorted association list: insert or overwrite,
keeping keys strictly sorted, as std::map operator[] does. -/
def mapAssign (m : Catalog) (k : Str) (v : List Str) : Catalog :=
  match m with
  | [] => [(k, v)]
  | (k', v') :: rest =>
    if k = k' then (k, v) :: rest
    else if strLt k k' then (k, v) :: (k', v') :: rest
    else (k', v') :: mapAssign rest k v

/-- std::map::emplace on the sorted association list: inserts only when the key
is absent (used by readCatalog). -/
def mapEmplace (m : Catalog) (k : Str) (v : List Str) : Catalog :=
  match m with
  | [] => [(k, v)]
  | (k', v') :: rest =>
    if k = k' then (k', v') :: rest
    else if strLt k k' then (k, v) :: (k', v') :: rest
    else (k', v') :: mapEmplace rest k v

/-- Concatenation of the parts, each followed by one separator character (the
shape produced by the encoder at both the ';' and the ',' level). -/
def joinSep (parts : List Str) (sep : Char) : Str :=
  (parts.map (fun p => p ++ [sep])).flatten

/-- One topic entry of the wire encoding built by the manager (rank 0, lines
200-211): name, then ':', then every keyword followed by ',' (the comma also
follows the last keyword). -/
def encodeEntry (p : Str × List Str) : Str :=
  p.1 ++ ':' :: joinSep p.2 ','

/-- Wire encoding of the whole catalog: every entry followed by ';', in catalog
iteration order. -/
def encodeCatalog (cat : Catalog) : Str :=
  joinSep (cat.map encodeEntry) ';'

/-- Splitting loop of the worker decoder: repeated std::getline with a
character delimiter. getline fails only on an empty rest of the stream; a
trailing delimiter yields no extra empty token. Each round consumes at least
one character, so length + 1 rounds of fuel always suffice. -/
def splitSepLoop (sep : Char) : Nat → Str → List Str
  | 0, _ => []
  | fuel + 1, s =>
    if s.isEmpty then []
    else
      match s.dropWhile (fun c => c != sep) with
      | [] => [s.takeWhile (fun c => c != sep)]
      | _ :: rest => s.takeWhile (fun c => c != sep) :: splitSepLoop sep fuel rest

/-- getline-based split on one separator character. -/
def splitSep (sep : Char) (s : Str) : List Str :=
  splitSepLoop sep (s.length + 1) s

/-- Worker-side parse of one ';'-entry (lines 256-265): getline up to ':' gives
the topic name (the whole entry when no ':' is present), the remainder is
split on ','. -/
def parseEntry (e : Str) : Str × List Str :=
  match e.dropWhile (fun c => c != ':') with
  | [] => (e.takeWhile (fun c => c != ':'), [])
  | _ :: tail => (e.takeWhile (fun c => c != ':'), splitSep ',' tail)

/-- Worker-side decode, entry list in parse order. -/
def decodeEntries (s : Str) : List (Str × List Str) :=
  (splitSep ';' s).map parseEntry

/-- Worker-side decode into the (initially empty) catalog map, via
catalog[category] = items. -/
def decodeCatalog (s : Str) : Catalog :=
  (decodeEntries s).foldl (fun m e => mapAssign m e.1 e.2) []

/-- A token is free of the three reserved wire separators. -/
def sepFree (s : Str) : Prop := (':' ∉ s) ∧ (',' ∉ s) ∧ (';' ∉ s)

instance (s : Str) : Decidable (sepFree s) :=
  inferInstanceAs (Decidable ((':' ∉ s) ∧ (',' ∉ s) ∧ (';' ∉ s)))

/-- Per-worker assignment sizes: worker k+1 (for k = 0 .. W-1) receives N / W
documents plus one more when k + 1 ≤ N % W; this is the code's
numDocumentsPerWorker + (i <= remainingDocuments ? 1 : 0) with W = size - 1
(lines 223-230). -/
def assignSizes (N W : Nat) : List Nat :=
  (List.range W).map (fun k => N / W + if k + 1 ≤ N % W then 1 else 0)

/-- Successive contiguous slices of the document list: mirrors the dispatch
loop's moving startIdx (lines 226-239). -/
def takeSlices {α : Type} : List Nat → List α → List (List α)
  | [], _ => []
  | n :: ns, docs => docs.take n :: takeSlices ns (docs.drop n)

/-- The static work partition of the manager. -/
def partitionDocs {α : Type} (docs : List α) (W : Nat) : List (List α) :=
  takeSlices (assignSizes docs.length W) docs

/-- The per-document fold of determineRelevantTopics (sequential main.cpp,
lines 170-179): maxCount starts at 0, relevantTopic starts empty, and only a
strictly greater count replaces the current choice. -/
def selectRelevant (topics : List (Str × Nat)) : Str × Nat :=
  topics.foldl (fun acc p => if acc.2 < p.2 then p else acc) ([], 0)

/-- determineRelevantTopics: document name mapped to the chosen dominant topic
name (the C++ unordered_map is modelled as the list of its entries). -/
def determineRelevantTopics (ms : List (Str × List (Str × Nat))) : List (Str × Str) :=
  ms.map (fun m => (m.1, (selectRelevant m.2).1))

/-- Reference maximum of the counts of a result list (0 for the empty list). -/
def maxCount (topics : List (Str × Nat)) : Nat :=
  topics.foldr (fun p m => max p.2 m) 0

/-- The tokenize loop (both variants): end = s.find(del, start); while found,
push s.substr(start, end - start) and resume after the delimiter; finally push
s.substr(start). The fuel bounds the iterations; length + 1 rounds suffice for
a nonempty delimiter. -/
def tokenizeLoop (s del : Str) : Nat → Nat → List Str
  | 0, start => [s.drop start]
  | fuel + 1, start =>
    match findFrom s del start with
    | none => [s.drop start]
    | some e => (s.drop start).take (e - start) :: tokenizeLoop s del fuel (e + del.length)

/-- tokenize(s, del). -/
def tokenize (s del : Str) : List Str :=
  tokenizeLoop s del (s.length + 1) 0

/-- One catalog line: tokenize on the separator "@%", then use tokens 0 and 1.
The C++ code indexes vector[1] without any bounds check, so a line without the
separator makes it read out of bounds (undefined behavior); that access is
modelled as none. -/
def parseCatalogLine (line : Str) : Option (Str × List Str) :=
  let v := tokenize line ['@', '%']
  match v[1]? with
  | none => none
  | some rest => some (v.headD [], tokenize rest [','])

/-- Outcome of catalog loading. -/
inductive LoadOutcome where
  | fatalDiagnostic (msg : Str)
  | undefinedAccess
  | loaded (cat : Catalog)
deriving DecidableEq

/-- readCatalog (parallel main.cpp, lines 45-64): a missing source prints a
diagnostic and throws (the uncaught exception aborts the run); otherwise every
line is tokenized on "@%" and emplaced. A line without the separator hits the
out-of-bounds read of parseCatalogLine. -/
def readCatalogModel (source : Option (List Str)) : LoadOutcome :=
  match source with
  | none => .fatalDiagnostic ("Catalog file does not exist".toList)
  | some lines =>
    match lines.mapM parseCatalogLine with
    | none => .undefinedAccess
    | some entries => .loaded (entries.foldl (fun m e => mapEmplace m e.1 e.2) [])

/-- MPI calls and classification steps, abstracted as trace events. -/
inductive MpiEvent where
  | bcastSend
  | bcastRecv
  | barrier
  | sendCount (worker n : Nat)
  | sendDoc (worker doc : Nat)
  | recvCount (n : Nat)
  | recvDoc (doc : Nat)
  | classify (doc : Nat)
deriving DecidableEq

/-- Dispatch loop of rank 0 (lines 228-240): for worker i, send the assignment
size, then each document of the worker's contiguous slice. -/
def dispatchEvents : Nat → List (List Nat) → List MpiEvent
  | _, [] => []
  | i, slice :: rest =>
    (MpiEvent.sendCount i slice.length :: slice.map (MpiEvent.sendDoc i))
      ++ dispatchEvents (i + 1) rest

/-- Program order of the MPI calls at rank 0: broadcast the catalog size and
bytes (lines 213-214), cross the barrier (line 217), then dispatch every
assignment (lines 219-241). -/
def managerTrace (docs : List Nat) (W : Nat) : List MpiEvent :=
  [MpiEvent.bcastSend, MpiEvent.bcastSend, MpiEvent.barrier]
    ++ dispatchEvents 1 (partitionDocs docs W)

/-- Program order of the MPI calls at a worker rank: the barrier (line 217)
comes first, then the two broadcast receives (lines 246-248), the assignment
size receive (line 268), then one receive/classify pair per document (lines
271-278). -/
def workerTrace (assigned : List Nat) : List MpiEvent :=
  [MpiEvent.barrier, MpiEvent.bcastRecv, MpiEvent.bcastRecv,
   MpiEvent.recvCount assigned.length]
    ++ (assigned.map (fun d => [MpiEvent.recvDoc d, MpiEvent.classify d])).flatten

def isDispatch : MpiEvent → Bool
  | .sendCount _ _ => true
  | .sendDoc _ _ => true
  | _ => false

def isClassify : MpiEvent → Bool
  | .classify _ => true
  | _ => false

def isRecvDoc : MpiEvent → Bool
  | .recvDoc _ => true
  | _ => false

/-- Manager actions guarded by catalog load: rank 0 calls readCatalog before
its first MPI call, so a load failure aborts before any broadcast, barrier or
dispatch event is emitted. -/
def managerEvents (source : Option (List Str)) (docs : List Nat) (W : Nat) : List MpiEvent :=
  match readCatalogModel source with
  | .loaded _ => managerTrace docs W
  | _ => []

/-- No occurrence can start at or beyond the end of the text. -/
theorem occursAt_false_of_ge {text kw : Str} (hkw : kw ≠ []) {j : Nat}
    (hj : text.length ≤ j) : occursAt text kw j = false := by
  simp only [occursAt, List.drop_eq_nil_iff.mpr hj, List.take_nil,
    decide_eq_false_iff_not]
  exact fun h => hkw h.symm

/-- An occurrence of a nonempty keyword fits inside the text. -/
theorem occursAt_bound {text kw : Str} {p : Nat} (hkw : kw ≠ [])
    (h : occursAt text kw p = true) : p + kw.length ≤ text.length := by
  have h' := of_decide_eq_true h
  have hlen : ((text.drop p).take kw.length).length = kw.length := by rw [h']
  rw [List.length_take, List.length_drop] at hlen
  have hpos : 0 < kw.length := List.length_pos.mpr hkw
  omega

/-- A failed scan means no occurrence in the scanned window. -/
theorem findScan_none {text kw : Str} :
    ∀ (fuel i : Nat), findScan text kw i fuel = none →
      ∀ j, i ≤ j → j < i + fuel → occursAt text kw j = false := by
  intro fuel
  induction fuel with
  | zero => intro i _ j _ _; omega
  | succ f ih =>
    intro i h j h1 h2
    by_cases hocc : occursAt text kw i
    · simp [findScan, hocc] at h
    · simp only [findScan, hocc, if_neg] at h
      rcases Nat.eq_or_lt_of_le h1 with rfl | hlt
      · simpa using hocc
      · exact ih (i + 1) (by simpa using h) j hlt (by omega)

/-- A successful scan returns the first occurrence in the scanned window. -/
theorem findScan_some {text kw : Str} :
    ∀ (fuel i p : Nat), findScan text kw i fuel = some p →
      i ≤ p ∧ p < i + fuel ∧ occursAt text kw p = true ∧
        ∀ j, i ≤ j → j < p → occursAt text kw j = false := by
  intro fuel
  induction fuel with
  | zero => intro i p h; simp [findScan] at h
  | succ f ih =>
    intro i p h
    by_cases hocc : occursAt text kw i
    · simp only [findScan, hocc, if_pos, Option.some.injEq] at h
      subst h
      exact ⟨le_rfl, by omega, hocc, fun j hj1 hj2 => by omega⟩
    · simp only [findScan, hocc, if_neg] at h
      obtain ⟨h1, h2, h3, h4⟩ := ih (i + 1) p (by simpa using h)
      refine ⟨by omega, by omega, h3, fun j hj1 hj2 => ?_⟩
      rcases Nat.eq_or_lt_of_le hj1 with rfl | hlt
      · simpa using hocc
      · exact h4 j hlt hj2

/-- find failing means no occurrence anywhere at or after start. -/
theorem findFrom_none {text kw : Str} {start : Nat} (hkw : kw ≠ [])
    (h : findFrom text kw start = none) :
    ∀ j, start ≤ j → occursAt text kw j = false := by
  intro j hj
  unfold findFrom at h
  by_cases hs : start ≤ text.length
  · rw [if_pos hs] at h
    by_cases hjl : j ≤ text.length
    · exact findScan_none _ _ h j hj (by omega)
    · exact occursAt_false_of_ge hkw (by omega)
  · exact occursAt_false_of_ge hkw (by omega)

/-- find succeeding returns the first occurrence at or after start. -/
theorem findFrom_some {text kw : Str} {start p : Nat}
    (h : findFrom text kw start = some p) :
    start ≤ p ∧ p ≤ text.length ∧ occursAt text kw p = true ∧
      ∀ j, start ≤ j → j < p → occursAt text kw j = false := by
  unfold findFrom at h
  by_cases hs : start ≤ text.length
  · rw [if_pos hs] at h
    obtain ⟨h1, h2, h3, h4⟩ := findScan_some _ _ _ h
    exact ⟨h1, by omega, h3, h4⟩
  · rw [if_neg hs] at h
    cases h

/-- When nothing occurs at or after start, the spec count of the rest is 0. -/
theorem spec_eq_zero {text kw : Str} (hkw : kw ≠ []) :
    ∀ (n start : Nat), text.length - start ≤ n →
      (∀ j, start ≤ j → occursAt text kw j = false) →
      specNonOverlapCount kw (text.drop start) = 0 := by
  intro n
  induction n with
  | zero =>
    intro start hle _
    rw [List.drop_eq_nil_iff.mpr (by omega)]
    cases kw with
    | nil => simp [specNonOverlapCount]
    | cons b kw' => simp [specNonOverlapCount]
  | succ n ih =>
    intro start hle hnone
    cases hdrop : text.drop start with
    | nil =>
      cases kw with
      | nil => simp [specNonOverlapCount]
      | cons b kw' => simp [specNonOverlapCount]
    | cons a rest =>
      cases kw with
      | nil => exact absurd rfl hkw
      | cons b kw' =>
        have hcond : ¬ ((a :: rest).take (b :: kw').length = b :: kw') := by
          have hx := hnone start le_rfl
          rw [occursAt, hdrop] at hx
          exact of_decide_eq_false hx
        rw [specNonOverlapCount, if_neg hcond]
        have hdd := List.drop_drop 1 start text
        have hrest : text.drop (start + 1) = rest := by
          rw [← hdd, hdrop]
          rfl
        have hlt : start < text.length := by
          by_contra hc
          push_neg at hc
          rw [List.drop_eq_nil_iff.mpr hc] at hdrop
          cases hdrop
        rw [← hrest]
        exact ih (start + 1) (by omega) (fun j hj => hnone j (by omega))

/-- A match at the current position consumes keyword-length characters. -/
theorem spec_step_match {text kw : Str} (hkw : kw ≠ []) {start : Nat}
    (hocc : occursAt text kw start = true) :
    specNonOverlapCount kw (text.drop start)
      = specNonOverlapCount kw (text.drop (start + kw.length)) + 1 := by
  cases kw with
  | nil => exact absurd rfl hkw
  | cons b kw' =>
    have hbound := occursAt_bound hkw hocc
    cases hdrop : text.drop start with
    | nil =>
      rw [List.drop_eq_nil_iff] at hdrop
      simp at hbound
      omega
    | cons a rest =>
      have hcond : (a :: rest).take (b :: kw').length = b :: kw' := by
        have hx := hocc
        rw [occursAt, hdrop] at hx
        exact of_decide_eq_true hx
      rw [specNonOverlapCount, if_pos hcond]
      congr 1
      have hdd := List.drop_drop (b :: kw').length start text
      rw [← hdd, hdrop]

/-- A mismatch at the current position advances by one character. -/
theorem spec_step_skip {text kw : Str} (hkw : kw ≠ []) {start : Nat}
    (hlt : start < text.length)
    (hocc : occursAt text kw start = false) :
    specNonOverlapCount kw (text.drop start)
      = specNonOverlapCount kw (text.drop (start + 1)) := by
  cases kw with
  | nil => exact absurd rfl hkw
  | cons b kw' =>
    cases hdrop : text.drop start with
    | nil =>
      rw [List.drop_eq_nil_iff] at hdrop
      omega
    | cons a rest =>
      have hcond : ¬ ((a :: rest).take (b :: kw').length = b :: kw') := by
        have hx := hocc
        rw [occursAt, hdrop] at hx
        exact of_decide_eq_false hx
      rw [specNonOverlapCount, if_neg hcond]
      have hdd := List.drop_drop 1 start text
      have hrest : text.drop (start + 1) = rest := by
        rw [← hdd, hdrop]
        rfl
      rw [hrest]

/-- Skipping to the first occurrence p at or after start and consuming it is
one spec step. -/
theorem spec_skip {text kw : Str} (hkw : kw ≠ []) :
    ∀ (n start p : Nat), start ≤ p → p - start ≤ n →
      occursAt text kw p = true →
      (∀ j, start ≤ j → j < p → occursAt text kw j = false) →
      specNonOverlapCount kw (text.drop start)
        = specNonOverlapCount kw (text.drop (p + kw.length)) + 1 := by
  intro n
  induction n with
  | zero =>
    intro start p hsp hn hocc _
    have heq : start = p := by omega
    subst heq
    exact spec_step_match hkw hocc
  | succ n ih =>
    intro start p hsp hn hocc hmin
    rcases Nat.eq_or_lt_of_le hsp with rfl | hlt
    · exact spec_step_match hkw hocc
    · have hbound := occursAt_bound hkw hocc
      have hlen : 0 < kw.length := List.length_pos.mpr hkw
      rw [spec_step_skip hkw (by omega) (hmin start le_rfl hlt)]
      exact ih (start + 1) p (by omega) (by omega) hocc
        (fun j hj1 hj2 => hmin j (by omega) hj2)

/-- The C++ find loop with sufficient fuel computes the spec scan count of the
remaining text. -/
theorem countLoop_eq_spec {text kw : Str} (hkw : kw ≠ []) :
    ∀ (fuel pos : Nat), text.length + 1 - pos ≤ fuel →
      countLoop text kw fuel pos = specNonOverlapCount kw (text.drop pos) := by
  intro fuel
  induction fuel with
  | zero =>
    intro pos hle
    rw [List.drop_eq_nil_iff.mpr (by omega)]
    cases kw with
    | nil => exact absurd rfl hkw
    | cons b kw' => simp [countLoop, specNonOverlapCount]
  | succ f ih =>
    intro pos hle
    cases hf : findFrom text kw pos with
    | none =>
      rw [countLoop, hf]
      exact (spec_eq_zero hkw (text.length - pos) pos (by omega)
        (findFrom_none hkw hf)).symm
    | some p =>
      obtain ⟨h1, h2, h3, h4⟩ := findFrom_some hf
      have hlen : 0 < kw.length := List.length_pos.mpr hkw
      rw [countLoop, hf]
      show countLoop text kw f (p + kw.length) + 1 = _
      rw [spec_skip hkw (p - pos) pos p h1 le_rfl h3 h4]
      exact congrArg (· + 1) (ih (p + kw.length) (by omega))

/-- The count computed by the code equals the spec's non-overlapping scan. -/
theorem countOccurrences_eq_spec {text kw : Str} (hkw : kw ≠ []) :
    countOccurrences text kw = specNonOverlapCount kw text := by
  have h := @countLoop_eq_spec text kw hkw (text.length + 1) 0 (by omega)
  simpa using h

/-- The accumulating count loop over a topic's identifiers is the sum of the
individual keyword counts. -/
theorem foldl_add_sum {α : Type} (f : α → Nat) :
    ∀ (l : List α) (a : Nat), l.foldl (fun c x => c + f x) a = a + (l.map f).sum := by
  intro l
  induction l with
  | nil => intro a; simp
  | cons x xs ih =>
    intro a
    simp only [List.foldl_cons, List.map_cons, List.sum_cons, ih]
    omega

/-- C1: for every catalog and document text, the matcher counts, for each
keyword of each topic, the non-overlapping occurrences of that keyword in the
text, scanning left to right and resuming after each found occurrence (modelled
for nonempty keywords; an empty keyword makes the C++ loop diverge). The
witness instantiates keyword "aa" and text "aaaa", whose count is 2. -/
theorem c1_matcher_counts_nonoverlapping (cat : Catalog) (text : Str)
    (hkw : ∀ p ∈ cat, ∀ kw ∈ p.2, kw ≠ []) :
    classifyDocument cat text
      = cat.map (fun p => (p.1, (p.2.map (fun kw => specNonOverlapCount kw text)).sum)) := by
  unfold classifyDocument
  apply List.map_congr_left
  intro p hp
  have hsum : topicCount text p.2 = (p.2.map (fun kw => countOccurrences text kw)).sum := by
    rw [topicCount, foldl_add_sum (fun kw => countOccurrences text kw)]
    exact Nat.zero_add _
  have hmap : p.2.map (fun kw => countOccurrences text kw)
      = p.2.map (fun kw => specNonOverlapCount kw text) :=
    List.map_congr_left (fun kw hkwmem => countOccurrences_eq_spec (hkw p hp kw hkwmem))
  rw [hsum, hmap]

/-- Witness for C1 at keyword "aa" and text "aaaa": the count is 2 (not 3). -/
theorem c1_matcher_counts_nonoverlapping_witness :
    classifyDocument [(['A'], [['a', 'a']])] ['a', 'a', 'a', 'a']
        = ([(['A'], [['a', 'a']])] : Catalog).map
            (fun p => (p.1, (p.2.map (fun kw => specNonOverlapCount kw ['a', 'a', 'a', 'a'])).sum))
    ∧ classifyDocument [(['A'], [['a', 'a']])] ['a', 'a', 'a', 'a'] = [(['A'], 2)] :=
  ⟨c1_matcher_counts_nonoverlapping _ _ (by decide), by decide⟩

/-- takeWhile and dropWhile of a list split at the first predicate failure. -/
theorem takeWhile_app {α : Type} (q : α → Bool) :
    ∀ (p : List α) (b : α) (t : List α), (∀ a ∈ p, q a = true) → q b = false →
      (p ++ b :: t).takeWhile q = p ∧ (p ++ b :: t).dropWhile q = b :: t := by
  intro p
  induction p with
  | nil =>
    intro b t _ hb
    simp [List.takeWhile_cons, List.dropWhile_cons, hb]
  | cons a p' ih =>
    intro b t hall hb
    have ha : q a = true := hall a (List.mem_cons_self a p')
    obtain ⟨h1, h2⟩ := ih b t (fun x hx => hall x (List.mem_cons_of_mem a hx)) hb
    simp [List.takeWhile_cons, List.dropWhile_cons, ha, h1, h2]

/-- A list with a marked element in it is nonempty. -/
theorem append_cons_isEmpty {α : Type} (p : List α) (b : α) (t : List α) :
    (p ++ b :: t).isEmpty = false := by
  cases p <;> rfl

/-- Splitting the separator-joined parts recovers the parts, provided no part
contains the separator (this is the getline splitting applied to the encoder
output shape). -/
theorem splitSepLoop_joinSep (sep : Char) :
    ∀ (parts : List Str) (fuel : Nat), (∀ p ∈ parts, sep ∉ p) →
      (joinSep parts sep).length < fuel →
      splitSepLoop sep fuel (joinSep parts sep) = parts := by
  intro parts
  induction parts with
  | nil =>
    intro fuel _ hfuel
    cases fuel with
    | zero => simp [joinSep] at hfuel
    | succ f => simp [joinSep, splitSepLoop]
  | cons p rest ih =>
    intro fuel hsep hfuel
    have hjoin : joinSep (p :: rest) sep = p ++ sep :: joinSep rest sep := by
      simp [joinSep]
    cases fuel with
    | zero => omega
    | succ f =>
      rw [hjoin]
      have hq : ∀ a ∈ p, (a != sep) = true := by
        intro a ha
        exact bne_iff_ne.mpr (fun h => hsep p (List.mem_cons_self p rest) (h ▸ ha))
      have hb : (sep != sep) = false := bne_self_eq_false sep
      obtain ⟨htake, hdrop⟩ := takeWhile_app _ p sep (joinSep rest sep) hq hb
      rw [splitSepLoop, if_neg (by simp [append_cons_isEmpty]), hdrop]
      show (List.takeWhile (fun c => c != sep) (p ++ sep :: joinSep rest sep))
          :: splitSepLoop sep f (joinSep rest sep) = p :: rest
      rw [htake]
      have hlen : (joinSep (p :: rest) sep).length
          = p.length + 1 + (joinSep rest sep).length := by
        rw [hjoin]
        simp [List.length_append]
        omega
      exact congrArg (p :: ·)
        (ih f (fun x hx => hsep x (List.mem_cons_of_mem p hx)) (by omega))

/-- Every character of a separator-joined list is the separator or a character
of one part. -/
theorem mem_joinSep {parts : List Str} {sep : Char} {c : Char}
    (h : c ∈ joinSep parts sep) : c = sep ∨ ∃ p ∈ parts, c ∈ p := by
  unfold joinSep at h
  rw [List.mem_flatten] at h
  obtain ⟨s, hs, hc⟩ := h
  rw [List.mem_map] at hs
  obtain ⟨p, hp, rfl⟩ := hs
  rw [List.mem_append] at hc
  rcases hc with hc | hc
  · exact Or.inr ⟨p, hp, hc⟩
  · rw [List.mem_singleton] at hc
    exact Or.inl hc

/-- Parsing an encoded entry recovers the topic, provided its tokens are free
of the reserved separators. -/
theorem parseEntry_encodeEntry {p : Str × List Str} (hname : sepFree p.1)
    (hkws : ∀ kw ∈ p.2, sepFree kw) : parseEntry (encodeEntry p) = p := by
  obtain ⟨name, kws⟩ := p
  have hq : ∀ a ∈ name, (a != ':') = true := by
    intro a ha
    exact bne_iff_ne.mpr (fun h => hname.1 (h ▸ ha))
  have hb : ((':' : Char) != ':') = false := bne_self_eq_false _
  obtain ⟨htake, hdrop⟩ := takeWhile_app _ name ':' (joinSep kws ',') hq hb
  unfold parseEntry encodeEntry
  simp only
  rw [hdrop]
  show (List.takeWhile (fun c => c != ':') (name ++ ':' :: joinSep kws ','),
      splitSep ',' (joinSep kws ',')) = (name, kws)
  rw [htake]
  have hsplit : splitSep ',' (joinSep kws ',') = kws :=
    splitSepLoop_joinSep ',' kws _ (fun kw hkw => (hkws kw hkw).2.1) (by omega)
  rw [hsplit]

/-- An encoded entry of a separator-free topic contains no topic separator. -/
theorem semi_not_mem_encodeEntry {p : Str × List Str} (hname : sepFree p.1)
    (hkws : ∀ kw ∈ p.2, sepFree kw) : ';' ∉ encodeEntry p := by
  intro hmem
  unfold encodeEntry at hmem
  rw [List.mem_append] at hmem
  rcases hmem with hmem | hmem
  · exact hname.2.2 hmem
  · rw [List.mem_cons] at hmem
    rcases hmem with hmem | hmem
    · exact absurd hmem (by decide)
    · rcases mem_joinSep hmem with hmem | ⟨kw, hkw, hmem⟩
      · exact absurd hmem (by decide)
      · exact (hkws kw hkw).2.2 hmem

/-- The worker's split-and-parse inverts the manager's encoding, entry by
entry, for separator-free catalogs. -/
theorem decodeEntries_encodeCatalog {c : Catalog}
    (hsep : ∀ p ∈ c, sepFree p.1 ∧ ∀ kw ∈ p.2, sepFree kw) :
    decodeEntries (encodeCatalog c) = c := by
  unfold decodeEntries encodeCatalog splitSep
  rw [splitSepLoop_joinSep ';' (c.map encodeEntry) _ ?hs (by omega)]
  case hs =>
    intro e he
    rw [List.mem_map] at he
    obtain ⟨p, hp, rfl⟩ := he
    exact semi_not_mem_encodeEntry (hsep p hp).1 (hsep p hp).2
  rw [List.map_map]
  have hid : ∀ p ∈ c, (parseEntry ∘ encodeEntry) p = p := by
    intro p hp
    exact parseEntry_encodeEntry (hsep p hp).1 (hsep p hp).2
  rw [List.map_congr_left hid]
  simp

/-- strLt is irreflexive. -/
theorem strLt_irrefl : ∀ (s : Str), strLt s s = false := by
  intro s
  induction s with
  | nil => rfl
  | cons a as ih => simp [strLt, lt_irrefl, ih]

/-- strLt is asymmetric. -/
theorem strLt_asymm : ∀ (s t : Str), strLt s t = true → strLt t s = false := by
  intro s
  induction s with
  | nil =>
    intro t h
    cases t with
    | nil => cases h
    | cons b bs => rfl
  | cons a as ih =>
    intro t h
    cases t with
    | nil => cases h
    | cons b bs =>
      by_cases hab : a < b
      · have hba : ¬ b < a := lt_asymm hab
        simp [strLt, hab, hba]
      · by_cases hba : b < a
        · simp [strLt, hab, hba] at h
        · simp [strLt, hab, hba] at h ⊢
          exact ih bs h

/-- Assigning a key greater than every key of the map appends the binding. -/
theorem mapAssign_append {m : Catalog} {k : Str} {v : List Str}
    (h : ∀ q ∈ m, strLt q.1 k = true) : mapAssign m k v = m ++ [(k, v)] := by
  induction m with
  | nil => rfl
  | cons q rest ih =>
    have hq : strLt q.1 k = true := h q (List.mem_cons_self q rest)
    have hne : ¬ (k = q.1) := by
      intro he
      rw [he] at hq
      rw [strLt_irrefl q.1] at hq
      cases hq
    have hlt : strLt k q.1 = false := strLt_asymm _ _ hq
    unfold mapAssign
    rw [if_neg hne, if_neg (by simp [hlt])]
    rw [List.cons_append]
    exact congrArg (q :: ·) (ih (fun x hx => h x (List.mem_cons_of_mem q hx)))

/-- Re-inserting the entries of a strictly key-sorted list into an empty map
reproduces the list. -/
theorem foldl_mapAssign_sorted :
    ∀ (c : Catalog), c.Pairwise (fun p q => strLt p.1 q.1 = true) →
      c.foldl (fun m e => mapAssign m e.1 e.2) [] = c := by
  intro c
  induction c using List.reverseRecOn with
  | nil => intro _; rfl
  | append_singleton c p ih =>
    intro hpair
    rw [List.pairwise_append] at hpair
    obtain ⟨h1, _, h3⟩ := hpair
    rw [List.foldl_append]
    show mapAssign (c.foldl (fun m e => mapAssign m e.1 e.2) []) p.1 p.2 = c ++ [p]
    rw [ih h1]
    rw [mapAssign_append (fun q hq => h3 q hq p (List.mem_singleton.mpr rfl))]

/-- C2: for every catalog whose topic names and keywords contain none of the
reserved separators, decoding the encoded byte form yields the catalog back
(the catalog is a std::map, so its entry list is strictly key-sorted). -/
theorem c2_codec_roundtrip (c : Catalog)
    (hsorted : c.Pairwise (fun p q => strLt p.1 q.1 = true))
    (hsep : ∀ p ∈ c, sepFree p.1 ∧ ∀ kw ∈ p.2, sepFree kw) :
    decodeCatalog (encodeCatalog c) = c := by
  unfold decodeCatalog
  rw [decodeEntries_encodeCatalog hsep]
  exact foldl_mapAssign_sorted c hsorted

/-- Witness for C2 on a two-topic catalog. -/
theorem c2_codec_roundtrip_witness :
    ([("Animals".toList, ["cat".toList, "dog".toList]),
      ("Colors".toList, ["red".toList, "blue".toList])] : Catalog).Pairwise
        (fun p q => strLt p.1 q.1 = true)
    ∧ decodeCatalog (encodeCatalog
          [("Animals".toList, ["cat".toList, "dog".toList]),
           ("Colors".toList, ["red".toList, "blue".toList])])
        = [("Animals".toList, ["cat".toList, "dog".toList]),
           ("Colors".toList, ["red".toList, "blue".toList])] :=
  ⟨by decide, c2_codec_roundtrip _ (by decide) (by decide)⟩

/-- Sum of base-plus-indicator over the worker indices. -/
theorem assignSizes_sum_aux :
    ∀ (W base r : Nat),
      ((List.range W).map (fun k => base + if k + 1 ≤ r then 1 else 0)).sum
        = W * base + min r W := by
  intro W
  induction W with
  | zero => intro base r; simp
  | succ W ih =>
    intro base r
    rw [List.range_succ, List.map_append, List.sum_append]
    simp only [List.map_cons, List.map_nil, List.sum_cons, List.sum_nil]
    rw [ih base r, Nat.succ_mul]
    by_cases h : W + 1 ≤ r
    · rw [if_pos h]
      omega
    · rw [if_neg h]
      omega

/-- The assignment sizes sum to the number of documents. -/
theorem assignSizes_sum (N W : Nat) (hW : 1 ≤ W) : (assignSizes N W).sum = N := by
  unfold assignSizes
  rw [assignSizes_sum_aux]
  have hmod : N % W < W := Nat.mod_lt _ (by omega)
  have hdm := Nat.div_add_mod N W
  omega

/-- Slicing by a list of sizes that fits in the document list produces slices
of exactly those sizes, in order. -/
theorem takeSlices_spec {α : Type} :
    ∀ (sizes : List Nat) (docs : List α), sizes.sum ≤ docs.length →
      (takeSlices sizes docs).map List.length = sizes
      ∧ (takeSlices sizes docs).flatten = docs.take sizes.sum := by
  intro sizes
  induction sizes with
  | nil => intro docs _; exact ⟨rfl, rfl⟩
  | cons n ns ih =>
    intro docs hsum
    rw [List.sum_cons] at hsum
    obtain ⟨ih1, ih2⟩ := ih (docs.drop n) (by rw [List.length_drop]; omega)
    constructor
    · show (docs.take n).length :: (takeSlices ns (docs.drop n)).map List.length = n :: ns
      rw [ih1, List.length_take_of_le (by omega)]
    · show docs.take n ++ (takeSlices ns (docs.drop n)).flatten = docs.take (n + ns.sum)
      rw [ih2, List.take_add]

/-- C3: the partitioner assigns contiguous slices in original order; with
base = N / W and rem = N % W, worker k+1 receives base + 1 documents when
k + 1 ≤ rem and base otherwise; the sizes sum to N and any two sizes differ by
at most 1. -/
theorem c3_partition {α : Type} (docs : List α) (W : Nat) (hW : 1 ≤ W) :
    (partitionDocs docs W).map List.length = assignSizes docs.length W
    ∧ ((partitionDocs docs W).map List.length).sum = docs.length
    ∧ (partitionDocs docs W).flatten = docs
    ∧ ∀ a ∈ assignSizes docs.length W, ∀ b ∈ assignSizes docs.length W,
        a ≤ b + 1 := by
  unfold partitionDocs
  have hsum : (assignSizes docs.length W).sum = docs.length := assignSizes_sum _ _ hW
  obtain ⟨h1, h2⟩ := takeSlices_spec (assignSizes docs.length W) docs (by omega)
  refine ⟨h1, ?_, ?_, ?_⟩
  · rw [h1]
    exact hsum
  · rw [h2, hsum, List.take_length]
  · intro a ha b hb
    unfold assignSizes at ha hb
    rw [List.mem_map] at ha hb
    obtain ⟨ka, _, rfl⟩ := ha
    obtain ⟨kb, _, rfl⟩ := hb
    by_cases hka : ka + 1 ≤ docs.length % W <;>
      by_cases hkb : kb + 1 ≤ docs.length % W <;>
      (simp [hka, hkb]; try omega)

/-- Witness for C3: 3 documents over 2 workers give slices of sizes 2 and 1. -/
theorem c3_partition_witness :
    (partitionDocs [10, 20, 30] 2).map List.length = assignSizes 3 2
    ∧ (partitionDocs [10, 20, 30] 2).flatten = [10, 20, 30]
    ∧ partitionDocs [10, 20, 30] 2 = [[10, 20], [30]] :=
  ⟨(c3_partition [10, 20, 30] 2 (by decide)).1,
   (c3_partition [10, 20, 30] 2 (by decide)).2.2.1,
   by decide⟩

/-- C4: the matcher result has exactly one (topic, count) entry per catalog
topic, in catalog iteration order, every count is nonnegative, and a topic
with an empty keyword list gets count 0 (keywords are required nonempty, since
an empty keyword string makes the C++ loop diverge). -/
theorem c4_entry_per_topic (cat : Catalog) (text : Str)
    (_hkw : ∀ p ∈ cat, ∀ kw ∈ p.2, kw ≠ []) :
    ((classifyDocument cat text).map Prod.fst = cat.map Prod.fst)
    ∧ (∀ r ∈ classifyDocument cat text, 0 ≤ r.2)
    ∧ (∀ p ∈ cat, p.2 = [] → (p.1, 0) ∈ classifyDocument cat text) := by
  refine ⟨?_, ?_, ?_⟩
  · unfold classifyDocument
    rw [List.map_map]
    rfl
  · intro r _
    exact Nat.zero_le _
  · intro p hp hnil
    have hmem : (p.1, topicCount text p.2) ∈ classifyDocument cat text :=
      List.mem_map_of_mem _ hp
    rw [hnil] at hmem
    exact hmem

/-- Witness for C4 on a catalog with an empty-keyword-list topic. -/
theorem c4_entry_per_topic_witness :
    ((['E'], 0) ∈ classifyDocument [((['E'] : Str), ([] : List Str))] ['x'])
    ∧ (classifyDocument [((['E'] : Str), ([] : List Str))] ['x']).map Prod.fst
        = ([((['E'] : Str), ([] : List Str))] : Catalog).map Prod.fst :=
  ⟨(c4_entry_per_topic [((['E'] : Str), ([] : List Str))] ['x'] (by decide)).2.2
      (['E'], []) (by decide) rfl,
   (c4_entry_per_topic [((['E'] : Str), ([] : List Str))] ['x'] (by decide)).1⟩

/-- The selection fold keeps its accumulator when no count strictly exceeds it. -/
theorem foldl_select_keep :
    ∀ (l : List (Str × Nat)) (acc : Str × Nat), (∀ x ∈ l, x.2 ≤ acc.2) →
      l.foldl (fun a p => if a.2 < p.2 then p else a) acc = acc := by
  intro l
  induction l with
  | nil => intro acc _; rfl
  | cons x xs ih =>
    intro acc hall
    have hx : x.2 ≤ acc.2 := hall x (List.mem_cons_self x xs)
    rw [List.foldl_cons, if_neg (by omega)]
    exact ih acc (fun y hy => hall y (List.mem_cons_of_mem x hy))

/-- Every count in the list is at most the reference maximum. -/
theorem mem_le_maxCount : ∀ (l : List (Str × Nat)), ∀ x ∈ l, x.2 ≤ maxCount l := by
  intro l
  induction l with
  | nil => intro x hx; cases hx
  | cons p rest ih =>
    intro x hx
    show x.2 ≤ max p.2 (maxCount rest)
    rcases List.mem_cons.mp hx with rfl | hx
    · exact le_max_left _ _
    · exact le_trans (ih x hx) (le_max_right _ _)

/-- The strict-greater fold starting below the maximum lands on the first
element attaining the maximum. -/
theorem select_first_max :
    ∀ (l : List (Str × Nat)) (acc : Str × Nat) (q : Str × Nat),
      acc.2 < maxCount l →
      l.find? (fun p => p.2 == maxCount l) = some q →
      l.foldl (fun a p => if a.2 < p.2 then p else a) acc = q := by
  intro l
  induction l with
  | nil =>
    intro acc q h _
    simp [maxCount] at h
  | cons p rest ih =>
    intro acc q hlt hfind
    have hmax : maxCount (p :: rest) = max p.2 (maxCount rest) := rfl
    by_cases hp : p.2 = maxCount (p :: rest)
    · simp only [List.find?_cons, hp, beq_self_eq_true, Option.some.injEq] at hfind
      subst hfind
      rw [List.foldl_cons, if_pos (by omega : acc.2 < p.2)]
      refine foldl_select_keep rest p (fun x hx => ?_)
      have h1 := mem_le_maxCount rest x hx
      rw [hmax] at hp
      omega
    · have hlt2 : p.2 < maxCount (p :: rest) := by
        have h1 : p.2 ≤ max p.2 (maxCount rest) := le_max_left _ _
        rw [hmax]
        rw [hmax] at hp
        omega
      have hmc : maxCount (p :: rest) = maxCount rest := by
        rw [hmax]
        rw [hmax] at hlt2
        omega
      have hbf : (p.2 == maxCount (p :: rest)) = false :=
        beq_eq_false_iff_ne.mpr hp
      simp only [List.find?_cons, hbf] at hfind
      simp only [hmc] at hfind
      rw [List.foldl_cons]
      rw [hmc] at hlt2
      by_cases hacc : acc.2 < p.2
      · rw [if_pos hacc]
        exact ih p q hlt2 hfind
      · rw [if_neg hacc]
        rw [hmc] at hlt
        exact ih acc q hlt hfind

/-- C5: the dominant topic chosen for a document is the first topic, in the
fixed iteration order, attaining the maximum count; a later topic with an
equal count never overtakes it. -/
theorem c5_first_max_wins (topics : List (Str × Nat)) (q : Str × Nat)
    (hmax : 0 < maxCount topics)
    (hfind : topics.find? (fun p => p.2 == maxCount topics) = some q) :
    selectRelevant topics = q := by
  unfold selectRelevant
  exact select_first_max topics ([], 0) q hmax hfind

/-- Witness for C5 at counts Animals 2, Colors 2: Animals wins the tie. -/
theorem c5_first_max_wins_witness :
    maxCount [("Animals".toList, 2), ("Colors".toList, 2)] = 2
    ∧ selectRelevant [("Animals".toList, 2), ("Colors".toList, 2)]
        = ("Animals".toList, 2) :=
  ⟨by decide, c5_first_max_wins _ _ (by decide) (by decide)⟩

/-- C10: a document whose counts are all zero is mapped to the empty string
rather than to any catalog topic. -/
theorem c10_all_zero_dominant_empty (ms : List (Str × List (Str × Nat)))
    (doc : Str × List (Str × Nat)) (hd : doc ∈ ms)
    (h0 : ∀ p ∈ doc.2, p.2 = 0) :
    (doc.1, ([] : Str)) ∈ determineRelevantTopics ms := by
  unfold determineRelevantTopics
  have hsel : selectRelevant doc.2 = ([], 0) := by
    unfold selectRelevant
    exact foldl_select_keep doc.2 ([], 0) (fun x hx => by simp [h0 x hx])
  have hmem : (doc.1, (selectRelevant doc.2).1)
      ∈ ms.map (fun m => (m.1, (selectRelevant m.2).1)) :=
    List.mem_map_of_mem (fun m => (m.1, (selectRelevant m.2).1)) hd
  rw [hsel] at hmem
  exact hmem

/-- Witness for C10 on a document with two zero counts. -/
theorem c10_all_zero_dominant_empty_witness :
    ("doc1".toList, ([] : Str)) ∈ determineRelevantTopics
      [("doc1".toList, [("Animals".toList, 0), ("Colors".toList, 0)])] :=
  c10_all_zero_dominant_empty
    [("doc1".toList, [("Animals".toList, 0), ("Colors".toList, 0)])]
    ("doc1".toList, [("Animals".toList, 0), ("Colors".toList, 0)])
    (by decide) (by decide)

/-- C6: a missing catalog source yields the fatal diagnostic and aborts before
any MPI call, so no assignment is dispatched; but a line lacking the "@%"
separator does not fail with a diagnostic: tokenize returns a single token and
the C++ code then reads vector[1] out of bounds (undefined behavior, modelled
as the distinguished undefinedAccess outcome), which likewise emits no event
but contradicts the claimed diagnostic. -/
theorem c6_catalog_load_failure :
    readCatalogModel none
        = LoadOutcome.fatalDiagnostic ("Catalog file does not exist".toList)
    ∧ (∀ docs W, managerEvents none docs W = [])
    ∧ tokenize ("Animals".toList) ['@', '%'] = ["Animals".toList]
    ∧ parseCatalogLine ("Animals".toList) = none
    ∧ readCatalogModel (some ["Animals".toList]) = LoadOutcome.undefinedAccess
    ∧ readCatalogModel (some ["Animals".toList])
        ≠ LoadOutcome.fatalDiagnostic ("Catalog file does not exist".toList) :=
  ⟨rfl, fun _ _ => rfl, by decide, by decide, by decide, by decide⟩

/-- C7 counterexample: in the worker's program order the barrier (index 0)
precedes both broadcast receives (indices 1 and 2), so the barrier is crossed
by the worker before its catalog broadcast participation completes: the worker
does not yet hold the catalog when it crosses the barrier, contrary to the
claimed order broadcast-then-barrier-then-dispatch. -/
theorem c7_barrier_before_broadcast :
    workerTrace [0] = [MpiEvent.barrier, MpiEvent.bcastRecv, MpiEvent.bcastRecv,
      MpiEvent.recvCount 1, MpiEvent.recvDoc 0, MpiEvent.classify 0]
    ∧ (workerTrace [0]).findIdx (fun e => e == MpiEvent.barrier) = 0
    ∧ (workerTrace [0]).findIdx (fun e => e == MpiEvent.bcastRecv) = 1 := by
  decide

/-- Every event of the dispatch loop is a send. -/
theorem dispatchEvents_dispatch :
    ∀ (slices : List (List Nat)) (i : Nat), ∀ e ∈ dispatchEvents i slices,
      isDispatch e = true := by
  intro slices
  induction slices with
  | nil => intro i e he; cases he
  | cons s rest ih =>
    intro i e he
    simp only [dispatchEvents, List.mem_append, List.mem_cons] at he
    rcases he with (rfl | he) | he
    · rfl
    · rw [List.mem_map] at he
      obtain ⟨d, _, rfl⟩ := he
      rfl
    · exact ih (i + 1) e he

/-- Every event of the worker's per-document tail is a receive or a classify. -/
theorem workerTail_recv_classify (assigned : List Nat) :
    ∀ e ∈ (assigned.map (fun d => [MpiEvent.recvDoc d, MpiEvent.classify d])).flatten,
      isRecvDoc e = true ∨ isClassify e = true := by
  intro e he
  rw [List.mem_flatten] at he
  obtain ⟨s, hs, hes⟩ := he
  rw [List.mem_map] at hs
  obtain ⟨d, _, rfl⟩ := hs
  rcases List.mem_cons.mp hes with rfl | hes
  · exact Or.inl rfl
  · rcases List.mem_cons.mp hes with rfl | hes
    · exact Or.inr rfl
    · cases hes

/-- C7 amended: in the manager's program order both broadcast calls and the
barrier precede every dispatch event, and in each worker's program order both
broadcast receives precede every receive/classify step, so each worker holds
the full catalog before it classifies any document; the barrier itself,
however, is the worker's first MPI call (see the counterexample). -/
theorem c7_amended_ordering (docs : List Nat) (W : Nat) (assigned : List Nat) :
    (managerTrace docs W).take 3
        = [MpiEvent.bcastSend, MpiEvent.bcastSend, MpiEvent.barrier]
    ∧ (∀ e ∈ (managerTrace docs W).drop 3, isDispatch e = true)
    ∧ (workerTrace assigned).take 4
        = [MpiEvent.barrier, MpiEvent.bcastRecv, MpiEvent.bcastRecv,
           MpiEvent.recvCount assigned.length]
    ∧ (∀ e ∈ (workerTrace assigned).drop 4,
        isRecvDoc e = true ∨ isClassify e = true) := by
  refine ⟨rfl, ?_, rfl, ?_⟩
  · have hdrop : (managerTrace docs W).drop 3
        = dispatchEvents 1 (partitionDocs docs W) := rfl
    rw [hdrop]
    exact dispatchEvents_dispatch (partitionDocs docs W) 1
  · have hdrop : (workerTrace assigned).drop 4
        = (assigned.map (fun d => [MpiEvent.recvDoc d, MpiEvent.classify d])).flatten := rfl
    rw [hdrop]
    exact workerTail_recv_classify assigned

/-- Witness for the amended C7 with one worker and one document. -/
theorem c7_amended_ordering_witness :
    (managerTrace [7] 1).take 3
        = [MpiEvent.bcastSend, MpiEvent.bcastSend, MpiEvent.barrier]
    ∧ isDispatch (MpiEvent.sendCount 1 1) = true
    ∧ (workerTrace [7]).take 4
        = [MpiEvent.barrier, MpiEvent.bcastRecv, MpiEvent.bcastRecv,
           MpiEvent.recvCount 1]
    ∧ (isRecvDoc (MpiEvent.recvDoc 7) = true ∨ isClassify (MpiEvent.recvDoc 7) = true) :=
  ⟨(c7_amended_ordering [7] 1 [7]).1,
   (c7_amended_ordering [7] 1 [7]).2.1 (MpiEvent.sendCount 1 1) (by decide),
   (c7_amended_ordering [7] 1 [7]).2.2.1,
   (c7_amended_ordering [7] 1 [7]).2.2.2 (MpiEvent.recvDoc 7) (by decide)⟩

/-- C8: the codec performs no rejection or escaping: a keyword containing the
reserved separator ',' is encoded verbatim and silently decoded as two
different keywords, corrupting the catalog instead of rejecting it. -/
theorem c8_separator_silent_corruption :
    encodeCatalog [(['t'], [['a', ',', 'b']])]
        = ['t', ':', 'a', ',', 'b', ',', ';']
    ∧ decodeCatalog (encodeCatalog [(['t'], [['a', ',', 'b']])])
        = [(['t'], [['a'], ['b']])]
    ∧ decodeCatalog (encodeCatalog [(['t'], [['a', ',', 'b']])])
        ≠ [(['t'], [['a', ',', 'b']])] := by
  decide

